import Mathlib

/-!
Shallow embedding of the chunked file-transfer subsystem of the test-agent
repository, together with proofs of its specified properties.

Embedded source:
* `src/crates/agent-lib/src/lib.rs` — `CompressedWireFile`,
  `CompressedWireFileChunk`, `MessageError`, `into_chunks_with_size`,
  `from_chunks`;
* `src/bin/daemon/src/main.rs` — `InFlightTransfer`, the in-flight transfer
  registry, and the `put_file_chunk` handler;
* `src/crates/agent-lib/src/tls.rs` — `SelfSignedCertResolver::verify_server_cert`
  and the `max_frame_length` configured by `serve`.

Modelling conventions:
* bytes are `Nat`, byte buffers `List Nat`; a blake3 digest (`[u8; 32]`) is a
  `List Nat` as well and the blake3 function itself — an external pure
  function of the byte buffer — is a parameter of the daemon step function;
* the `HashMap` registry is an association list with at most one binding per
  key (the Rust map cannot hold duplicate keys; lemmas that need this take a
  `Nodup` hypothesis on the key list);
* `Instant::now()` is a `Nat` parameter `now` passed to the handler;
* the handler's temp-file write (`into_temp_file_on_disk`), which is disk
  I/O outside the registry protocol, is modelled as succeeding;
* Rust's stable `sort_by_key` is modelled by a stable insertion sort
  (`sortChunks`); a stable sort's output is determined by its input, so any
  stable sort has the same behaviour.
-/

/-- Byte buffers (`Vec<u8>`); one `Nat` per byte. -/
abbrev Bytes := List Nat

/-- A blake3 digest (`[u8; 32]`). -/
abbrev Hash := List Nat

/-- `CompressedWireFileChunk` from `src/crates/agent-lib/src/lib.rs`. -/
structure CompressedWireFileChunk where
  filename : String
  chunk_id : Nat
  num_chunks : Nat
  zstd_compressed_data_chunk : Bytes
deriving DecidableEq, Inhabited

/-- `CompressedWireFile` from `src/crates/agent-lib/src/lib.rs`. -/
structure CompressedWireFile where
  filename : String
  zstd_compressed_data : Bytes
deriving DecidableEq, Inhabited

/-- The constructors of `MessageError` that `from_chunks` can return
(`src/crates/agent-lib/src/lib.rs`, lines 119-122). -/
inductive MessageError where
  | NoChunks : MessageError
  | WrongNumberOfChunks (expected actual : Nat) : MessageError
deriving DecidableEq

deriving instance DecidableEq for Except

/-- `PutFileChunkRequest` from `src/crates/agent-lib/src/lib.rs`; paths are
modelled as strings. -/
structure PutFileChunkRequest where
  file_hash : Hash
  target_perms : Nat
  target_path : String
  chunk : CompressedWireFileChunk
deriving DecidableEq, Inhabited

/-- `PutFileChunkResponse` from `src/crates/agent-lib/src/lib.rs`. -/
inductive PutFileChunkResponse where
  | Complete (chunk_id : Nat) : PutFileChunkResponse
  | Progress (chunk_id seen_chunks : Nat) : PutFileChunkResponse
  | Error (chunk_id : Nat) : PutFileChunkResponse
  | Duplicate (chunk_id : Nat) : PutFileChunkResponse
deriving DecidableEq

/-- Fuel-driven implementation of `slice::chunks`: `chunksOfGo n fuel l`
splits `l` into consecutive windows of `n` elements (last may be shorter),
provided `fuel ≥ l.length` and `n ≥ 1`. -/
def chunksOfGo (n : Nat) : Nat → List Nat → List (List Nat)
  | _, [] => []
  | 0, _ :: _ => []
  | fuel + 1, x :: xs => (x :: xs).take n :: chunksOfGo n fuel ((x :: xs).drop n)

/-- `slice::chunks(n)`: consecutive windows of `n` bytes, the last possibly
shorter. Matches the Rust iterator for every `n ≥ 1` (Rust panics on 0). -/
def chunksOf (n : Nat) (l : List Nat) : List (List Nat) :=
  chunksOfGo n l.length l

/-- Insert a chunk into a list sorted by `chunk_id`, after any chunk with a
strictly smaller id and before the first chunk whose id is ≥ — the stable
position.  Helper for `sortChunks`. -/
def insertChunk (c : CompressedWireFileChunk) :
    List CompressedWireFileChunk → List CompressedWireFileChunk
  | [] => [c]
  | d :: ds =>
    if c.chunk_id ≤ d.chunk_id then c :: d :: ds else d :: insertChunk c ds

/-- Stable sort by `chunk_id`, modelling `chunks.sort_by_key(|c| c.chunk_id)`
(Rust's `sort_by_key` is stable). -/
def sortChunks : List CompressedWireFileChunk → List CompressedWireFileChunk
  | [] => []
  | c :: cs => insertChunk c (sortChunks cs)

/-- `CompressedWireFile::from_chunks` (`src/crates/agent-lib/src/lib.rs`,
lines 241-263): sort by `chunk_id`; empty input fails with `NoChunks`;
a length differing from the first (sorted) chunk's `num_chunks` fails with
`WrongNumberOfChunks`; otherwise concatenate the payloads in sorted order. -/
def from_chunks (chunks : List CompressedWireFileChunk) :
    Except MessageError CompressedWireFile :=
  match sortChunks chunks with
  | [] => .error .NoChunks
  | c0 :: rest =>
    if (c0 :: rest).length ≠ c0.num_chunks then
      .error (.WrongNumberOfChunks c0.num_chunks (c0 :: rest).length)
    else
      .ok { filename := c0.filename,
            zstd_compressed_data :=
              ((c0 :: rest).map
                (fun c => c.zstd_compressed_data_chunk)).flatten }

/-- `CompressedWireFile::into_chunks_with_size` (`src/crates/agent-lib/src/lib.rs`,
lines 266-283): `num_chunks = (len + chunk_size - 1) / chunk_size`; the data
is split by `slice::chunks` and each window becomes a chunk whose `chunk_id`
is its index. -/
def into_chunks_with_size (f : CompressedWireFile) (chunk_size : Nat) :
    List CompressedWireFileChunk :=
  let num_chunks :=
    (f.zstd_compressed_data.length + chunk_size - 1) / chunk_size
  (chunksOf chunk_size f.zstd_compressed_data).enum.map
    (fun p =>
      { filename := f.filename
        chunk_id := p.1
        num_chunks := num_chunks
        zstd_compressed_data_chunk := p.2 })

/-- `InFlightTransfer` from `src/bin/daemon/src/main.rs` (lines 76-82). -/
structure InFlightTransfer where
  target_path : String
  target_perms : Nat
  last_updated : Nat
  chunks : List CompressedWireFileChunk
deriving DecidableEq, Inhabited

/-- The daemon's `in_flight_transfers` map (`HashMap<[u8; 32], InFlightTransfer>`),
as an association list with at most one binding per key. -/
abbrev Registry := List (Hash × InFlightTransfer)

/-- `HashMap::get`: first binding of the key, if any. -/
def lookupTransfer : Registry → Hash → Option InFlightTransfer
  | [], _ => none
  | (k', v) :: rest, k =>
    if k' = k then some v else lookupTransfer rest k

/-- Store a binding: replace the binding of `k` if present, else append. -/
def setTransfer : Registry → Hash → InFlightTransfer → Registry
  | [], k, v => [(k, v)]
  | (k', v') :: rest, k, v =>
    if k' = k then (k, v) :: rest else (k', v') :: setTransfer rest k v

/-- `HashMap::remove`: drop the binding of `k`, if any. -/
def removeTransfer : Registry → Hash → Registry
  | [], _ => []
  | (k', v') :: rest, k =>
    if k' = k then rest else (k', v') :: removeTransfer rest k

/-- The `InFlightTransfer` built by the `or_insert_with` closure in
`put_file_chunk` (`src/bin/daemon/src/main.rs`, lines 106-111). -/
def freshTransfer (req : PutFileChunkRequest) (now : Nat) : InFlightTransfer :=
  { target_path := req.target_path
    target_perms := req.target_perms
    last_updated := now
    chunks := [] }

/-- The completion path of `put_file_chunk` (`src/bin/daemon/src/main.rs`,
lines 135-163): reassemble the removed transfer's chunks, recompute the
blake3 digest and compare it with the request's `file_hash`; the temp-file
write on the success path is modelled as succeeding. -/
def finishTransfer (blake3 : Bytes → Hash) (reg2 : Registry) (chunk_id : Nat)
    (file_hash : Hash) (chunks : List CompressedWireFileChunk) :
    Registry × PutFileChunkResponse :=
  match from_chunks chunks with
  | .ok file =>
    if blake3 file.zstd_compressed_data ≠ file_hash then
      (reg2, .Error chunk_id)
    else
      (reg2, .Complete chunk_id)
  | .error _ => (reg2, .Error chunk_id)

/-- The body of `put_file_chunk` once the `entry(..).or_insert_with(..)`
ref `t0` is at hand (`src/bin/daemon/src/main.rs`, lines 112-163): reject a
recorded `chunk_id` as `Duplicate`; otherwise push the chunk (and refresh
`last_updated`), and either finish the transfer — removing it from the
registry under the same lock — when the chunk count reaches
`transfer.chunks[0].num_chunks`, or answer `Progress`.  `t0.chunks ++ [req.chunk]`
is nonempty, so `headD`'s default is never used. -/
def putChunkIntoTransfer (blake3 : Bytes → Hash) (now : Nat) (reg : Registry)
    (req : PutFileChunkRequest) (t0 : InFlightTransfer) :
    Registry × PutFileChunkResponse :=
  if t0.chunks.any (fun c => c.chunk_id == req.chunk.chunk_id) then
    (setTransfer reg req.file_hash t0, .Duplicate req.chunk.chunk_id)
  else if (t0.chunks ++ [req.chunk]).length
      = ((t0.chunks ++ [req.chunk]).headD req.chunk).num_chunks then
    finishTransfer blake3
      (removeTransfer
        (setTransfer reg req.file_hash
          { t0 with last_updated := now, chunks := t0.chunks ++ [req.chunk] })
        req.file_hash)
      req.chunk.chunk_id req.file_hash (t0.chunks ++ [req.chunk])
  else
    (setTransfer reg req.file_hash
      { t0 with last_updated := now, chunks := t0.chunks ++ [req.chunk] },
     .Progress req.chunk.chunk_id (t0.chunks ++ [req.chunk]).length)

/-- `Agent::put_file_chunk` (`src/bin/daemon/src/main.rs`, lines 95-164).
`blake3` is the digest function over compressed bytes; `now` the value of
`Instant::now()` during the call.  Returns the registry after the call and
the response. -/
def put_file_chunk (blake3 : Bytes → Hash) (now : Nat) (reg : Registry)
    (req : PutFileChunkRequest) : Registry × PutFileChunkResponse :=
  putChunkIntoTransfer blake3 now reg req
    ((lookupTransfer reg req.file_hash).getD (freshTransfer req now))

/-- The chunks currently recorded for a key (empty when the key is absent). -/
def curChunks (reg : Registry) (k : Hash) : List CompressedWireFileChunk :=
  match lookupTransfer reg k with
  | some t => t.chunks
  | none => []

/-- A transfer the completion test of `put_file_chunk` would fire on:
its chunk count equals the `num_chunks` recorded on its first chunk. -/
def transferFull (t : InFlightTransfer) : Bool :=
  match t.chunks.head? with
  | none => false
  | some c0 => t.chunks.length == c0.num_chunks

/-- No entry of the registry is a complete chunk set. -/
def RegistryInv (reg : Registry) : Prop :=
  ∀ p ∈ reg, transferFull p.2 = false

/-- A DER certificate (`rustls::Certificate`), as its bytes. -/
abbrev Certificate := Bytes

/-- `SelfSignedCertResolver` from `src/crates/agent-lib/src/tls.rs`. -/
structure SelfSignedCertResolver where
  end_entity : Certificate
deriving DecidableEq

/-- `SelfSignedCertResolver::verify_server_cert`
(`src/crates/agent-lib/src/tls.rs`, lines 296-314): accept exactly when the
presented end-entity certificate equals the pinned one; every other argument
(intermediates, server name, SCTs, OCSP response, time) is ignored. -/
def verify_server_cert (r : SelfSignedCertResolver)
    (end_entity : Certificate) (_intermediates : List Certificate)
    (_server_name : String) (_ocsp_response : Bytes) (_now : Nat) :
    Except String Unit :=
  if end_entity = r.end_entity then
    .ok ()
  else
    .error "we accept only matching self-signed certs"

/-- The `max_frame_length` configured by `serve`
(`src/crates/agent-lib/src/tls.rs`, lines 238-240):
`std::u32::MAX as usize`. -/
def serve_max_frame_length : Nat := 4294967295

/-! ### Lemmas about `chunksOf` -/

theorem chunksOfGo_congr (n : Nat) (hn : 0 < n) :
    ∀ (f1 f2 : Nat) (l : List Nat), l.length ≤ f1 → l.length ≤ f2 →
      chunksOfGo n f1 l = chunksOfGo n f2 l
  | f1, f2, [], _, _ => by cases f1 <;> cases f2 <;> rfl
  | 0, f2, x :: xs, h1, _ => by simp at h1
  | _ + 1, 0, x :: xs, _, h2 => by simp at h2
  | f1 + 1, f2 + 1, x :: xs, h1, h2 => by
    simp only [List.length_cons] at h1 h2
    simp only [chunksOfGo]
    refine congrArg _ (chunksOfGo_congr n hn f1 f2 _ ?_ ?_) <;>
      (simp only [List.length_drop, List.length_cons]; omega)

theorem chunksOf_nil (n : Nat) : chunksOf n [] = [] := rfl

theorem chunksOf_cons (n : Nat) (hn : 0 < n) (x : Nat) (xs : List Nat) :
    chunksOf n (x :: xs) = (x :: xs).take n :: chunksOf n ((x :: xs).drop n) := by
  have h1 : chunksOf n (x :: xs)
      = (x :: xs).take n :: chunksOfGo n xs.length ((x :: xs).drop n) := rfl
  rw [h1]
  unfold chunksOf
  refine congrArg _ (chunksOfGo_congr n hn xs.length _ _ ?_ le_rfl)
  simp
  omega

theorem chunksOf_eq_nil_iff (n : Nat) (hn : 0 < n) (l : List Nat) :
    chunksOf n l = [] ↔ l = [] := by
  cases l with
  | nil => simp [chunksOf_nil]
  | cons x xs => simp [chunksOf_cons n hn]

theorem chunksOf_flatten (n : Nat) (hn : 0 < n) :
    ∀ l : List Nat, (chunksOf n l).flatten = l
  | [] => by simp [chunksOf_nil]
  | x :: xs => by
    rw [chunksOf_cons n hn, List.flatten_cons,
      chunksOf_flatten n hn ((x :: xs).drop n), List.take_append_drop]
termination_by l => l.length
decreasing_by simp; omega

theorem chunksOf_length (n : Nat) (hn : 0 < n) :
    ∀ l : List Nat, (chunksOf n l).length = (l.length + n - 1) / n
  | [] => by
    rw [chunksOf_nil]
    simp only [List.length_nil]
    rw [Nat.div_eq_of_lt (by omega)]
  | x :: xs => by
    rw [chunksOf_cons n hn, List.length_cons,
      chunksOf_length n hn ((x :: xs).drop n)]
    simp only [List.length_drop, List.length_cons]
    rcases le_or_lt (xs.length + 1) n with hle | hlt
    · have e1 : xs.length + 1 - n = 0 := by omega
      rw [e1]
      rw [Nat.div_eq_of_lt (by omega)]
      rw [@Nat.div_eq_of_lt_le 1 n (xs.length + 1 + n - 1) (by omega) (by omega)]
    · have e1 : xs.length + 1 - n + n - 1 = xs.length := by omega
      have e2 : xs.length + 1 + n - 1 = xs.length + n := by omega
      rw [e1, e2, Nat.add_div_right _ hn]
termination_by l => l.length
decreasing_by simp; omega

theorem chunksOf_dropLast_length (n : Nat) (hn : 0 < n) :
    ∀ (l : List Nat), ∀ c ∈ (chunksOf n l).dropLast, c.length = n
  | [], c, hc => by rw [chunksOf_nil] at hc; simp at hc
  | x :: xs, c, hc => by
    rw [chunksOf_cons n hn] at hc
    by_cases hd : (x :: xs).drop n = []
    · rw [hd, chunksOf_nil] at hc
      simp at hc
    · have hne : chunksOf n ((x :: xs).drop n) ≠ [] := by
        rw [Ne, chunksOf_eq_nil_iff n hn]
        exact hd
      rw [List.dropLast_cons_of_ne_nil hne] at hc
      rcases List.mem_cons.mp hc with hc | hc
      · have hlen : n < xs.length + 1 := by
          by_contra hcon
          exact hd (List.drop_eq_nil_of_le (by simp; omega))
        rw [hc]
        simp [List.length_take]
        omega
      · exact chunksOf_dropLast_length n hn ((x :: xs).drop n) c hc
termination_by l => l.length
decreasing_by simp; omega

/-! ### Lemmas about the stable sort -/

theorem length_insertChunk (c : CompressedWireFileChunk) :
    ∀ l, (insertChunk c l).length = l.length + 1
  | [] => rfl
  | d :: ds => by
    simp only [insertChunk]
    split
    · simp
    · simp [length_insertChunk c ds]

theorem length_sortChunks : ∀ l, (sortChunks l).length = l.length
  | [] => rfl
  | c :: cs => by
    simp [sortChunks, length_insertChunk, length_sortChunks cs]

theorem mem_insertChunk (a c : CompressedWireFileChunk) :
    ∀ l, a ∈ insertChunk c l ↔ a = c ∨ a ∈ l
  | [] => by simp [insertChunk]
  | d :: ds => by
    simp only [insertChunk]
    split
    · simp [List.mem_cons]
    · simp only [List.mem_cons, mem_insertChunk a c ds]
      tauto

theorem mem_sortChunks (a : CompressedWireFileChunk) :
    ∀ l, a ∈ sortChunks l ↔ a ∈ l
  | [] => by simp [sortChunks]
  | c :: cs => by
    simp only [sortChunks, mem_insertChunk, mem_sortChunks a cs, List.mem_cons]

theorem sortChunks_of_sorted :
    ∀ l, l.Pairwise (fun a b => a.chunk_id ≤ b.chunk_id) → sortChunks l = l
  | [], _ => rfl
  | c :: cs, h => by
    rw [sortChunks, sortChunks_of_sorted cs (List.Pairwise.of_cons h)]
    cases cs with
    | nil => rfl
    | cons d ds =>
      have hle : c.chunk_id ≤ d.chunk_id :=
        (List.pairwise_cons.mp h).1 d (by simp)
      simp [insertChunk, hle]

/-! ### Lemmas about the registry operations -/

theorem lookupTransfer_none_of_not_mem :
    ∀ (reg : Registry) (k : Hash), k ∉ reg.map Prod.fst →
      lookupTransfer reg k = none
  | [], _, _ => rfl
  | (k', v) :: rest, k, h => by
    simp only [List.map_cons, List.mem_cons] at h
    push_neg at h
    simp only [lookupTransfer]
    rw [if_neg (fun he => h.1 he.symm)]
    exact lookupTransfer_none_of_not_mem rest k h.2

theorem setTransfer_lookup_self :
    ∀ (reg : Registry) (k : Hash) (v : InFlightTransfer),
      lookupTransfer reg k = some v → setTransfer reg k v = reg
  | [], k, v, h => by simp [lookupTransfer] at h
  | (k', v') :: rest, k, v, h => by
    simp only [lookupTransfer] at h
    simp only [setTransfer]
    by_cases he : k' = k
    · rw [if_pos he] at h
      rw [if_pos he, he]
      cases h
      rfl
    · rw [if_neg he] at h
      rw [if_neg he, setTransfer_lookup_self rest k v h]

theorem lookupTransfer_setTransfer :
    ∀ (reg : Registry) (k : Hash) (v : InFlightTransfer),
      lookupTransfer (setTransfer reg k v) k = some v
  | [], k, v => by simp [setTransfer, lookupTransfer]
  | (k', v') :: rest, k, v => by
    simp only [setTransfer]
    by_cases he : k' = k
    · rw [if_pos he]
      simp [lookupTransfer]
    · rw [if_neg he]
      simp only [lookupTransfer]
      rw [if_neg he]
      exact lookupTransfer_setTransfer rest k v

theorem removeTransfer_setTransfer :
    ∀ (reg : Registry) (k : Hash) (v : InFlightTransfer),
      removeTransfer (setTransfer reg k v) k = removeTransfer reg k
  | [], k, v => by simp [setTransfer, removeTransfer]
  | (k', v') :: rest, k, v => by
    simp only [setTransfer]
    by_cases he : k' = k
    · rw [if_pos he]
      simp [removeTransfer, he]
    · rw [if_neg he]
      simp only [removeTransfer]
      rw [if_neg he, if_neg he, removeTransfer_setTransfer rest k v]

theorem removeTransfer_of_lookup_none :
    ∀ (reg : Registry) (k : Hash), lookupTransfer reg k = none →
      removeTransfer reg k = reg
  | [], _, _ => rfl
  | (k', v') :: rest, k, h => by
    simp only [lookupTransfer] at h
    simp only [removeTransfer]
    by_cases he : k' = k
    · rw [if_pos he] at h
      cases h
    · rw [if_neg he] at h
      rw [if_neg he, removeTransfer_of_lookup_none rest k h]

theorem lookupTransfer_removeTransfer :
    ∀ (reg : Registry) (k : Hash), (reg.map Prod.fst).Nodup →
      lookupTransfer (removeTransfer reg k) k = none
  | [], _, _ => rfl
  | (k', v') :: rest, k, hnd => by
    simp only [List.map_cons, List.nodup_cons] at hnd
    simp only [removeTransfer]
    by_cases he : k' = k
    · rw [if_pos he]
      apply lookupTransfer_none_of_not_mem
      rw [← he]
      exact hnd.1
    · rw [if_neg he]
      simp only [lookupTransfer]
      rw [if_neg he]
      exact lookupTransfer_removeTransfer rest k hnd.2

theorem mem_setTransfer :
    ∀ (reg : Registry) (k : Hash) (v : InFlightTransfer) (p : Hash × InFlightTransfer),
      p ∈ setTransfer reg k v → p = (k, v) ∨ p ∈ reg
  | [], k, v, p, h => by
    simp only [setTransfer, List.mem_singleton] at h
    exact Or.inl h
  | (k', v') :: rest, k, v, p, h => by
    simp only [setTransfer] at h
    by_cases he : k' = k
    · rw [if_pos he] at h
      rcases List.mem_cons.mp h with h | h
      · exact Or.inl h
      · exact Or.inr (List.mem_cons_of_mem _ h)
    · rw [if_neg he] at h
      rcases List.mem_cons.mp h with h | h
      · exact Or.inr (h ▸ List.mem_cons_self _ _)
      · rcases mem_setTransfer rest k v p h with h | h
        · exact Or.inl h
        · exact Or.inr (List.mem_cons_of_mem _ h)

theorem mem_removeTransfer :
    ∀ (reg : Registry) (k : Hash) (p : Hash × InFlightTransfer),
      p ∈ removeTransfer reg k → p ∈ reg
  | [], _, _, h => by simp [removeTransfer] at h
  | (k', v') :: rest, k, p, h => by
    simp only [removeTransfer] at h
    by_cases he : k' = k
    · rw [if_pos he] at h
      exact List.mem_cons_of_mem _ h
    · rw [if_neg he] at h
      rcases List.mem_cons.mp h with h | h
      · exact h ▸ List.mem_cons_self _ _
      · exact List.mem_cons_of_mem _ (mem_removeTransfer rest k p h)

/-! ### Lemmas about `into_chunks_with_size` -/

theorem fst_le_of_mem_enumFrom {α : Type} :
    ∀ (i : Nat) (L : List α) (p : Nat × α), p ∈ L.enumFrom i → i ≤ p.1
  | _, [], p, h => by simp at h
  | i, a :: as, p, h => by
    rcases List.mem_cons.mp h with h | h
    · rw [h]
    · exact Nat.le_of_succ_le (fst_le_of_mem_enumFrom (i + 1) as p h)

theorem pairwise_fst_enumFrom {α : Type} :
    ∀ (i : Nat) (L : List α),
      (L.enumFrom i).Pairwise (fun p q => p.1 ≤ q.1)
  | _, [] => List.Pairwise.nil
  | i, a :: as => by
    rw [List.enumFrom_cons]
    exact List.Pairwise.cons
      (fun q hq => Nat.le_of_succ_le (fst_le_of_mem_enumFrom (i + 1) as q hq))
      (pairwise_fst_enumFrom (i + 1) as)

theorem into_chunks_length (f : CompressedWireFile) (cs : Nat) (hcs : 0 < cs) :
    (into_chunks_with_size f cs).length
      = (f.zstd_compressed_data.length + cs - 1) / cs := by
  simp only [into_chunks_with_size, List.length_map, List.enum_length]
  exact chunksOf_length cs hcs _

theorem into_chunks_map_payload (f : CompressedWireFile) (cs : Nat) :
    (into_chunks_with_size f cs).map (fun c => c.zstd_compressed_data_chunk)
      = chunksOf cs f.zstd_compressed_data := by
  simp only [into_chunks_with_size, List.map_map]
  exact List.enumFrom_map_snd 0 _

theorem mem_into_chunks (f : CompressedWireFile) (cs : Nat)
    (c : CompressedWireFileChunk) (hc : c ∈ into_chunks_with_size f cs) :
    c.filename = f.filename ∧
    c.num_chunks = (f.zstd_compressed_data.length + cs - 1) / cs := by
  simp only [into_chunks_with_size, List.mem_map] at hc
  obtain ⟨p, _, rfl⟩ := hc
  exact ⟨rfl, rfl⟩

theorem into_chunks_pairwise (f : CompressedWireFile) (cs : Nat) :
    (into_chunks_with_size f cs).Pairwise
      (fun a b => a.chunk_id ≤ b.chunk_id) := by
  simp only [into_chunks_with_size]
  rw [List.pairwise_map]
  exact pairwise_fst_enumFrom 0 _

theorem into_chunks_dropLast_length (f : CompressedWireFile) (cs : Nat)
    (hcs : 0 < cs) :
    ∀ c ∈ (into_chunks_with_size f cs).dropLast,
      c.zstd_compressed_data_chunk.length = cs := by
  intro c hc
  have h1 : c.zstd_compressed_data_chunk ∈
      ((into_chunks_with_size f cs).map
        (fun c => c.zstd_compressed_data_chunk)).dropLast := by
    rw [← List.map_dropLast]
    exact List.mem_map_of_mem _ hc
  rw [into_chunks_map_payload] at h1
  exact chunksOf_dropLast_length cs hcs _ _ h1

theorem into_chunks_ne_nil (f : CompressedWireFile) (cs : Nat) (hcs : 0 < cs)
    (hne : f.zstd_compressed_data ≠ []) : into_chunks_with_size f cs ≠ [] := by
  intro he
  have h1 : chunksOf cs f.zstd_compressed_data = [] := by
    rw [← into_chunks_map_payload f cs, he]
    rfl
  exact hne ((chunksOf_eq_nil_iff cs hcs _).mp h1)

/-! ### Lemmas about `from_chunks` -/

theorem from_chunks_sorted_nil (chunks : List CompressedWireFileChunk)
    (h : sortChunks chunks = []) : from_chunks chunks = .error .NoChunks := by
  unfold from_chunks
  split
  · rfl
  next c0 rest heq =>
    rw [h] at heq
    cases heq

theorem from_chunks_sorted_cons (chunks : List CompressedWireFileChunk)
    (c0 : CompressedWireFileChunk) (rest : List CompressedWireFileChunk)
    (h : sortChunks chunks = c0 :: rest) :
    from_chunks chunks =
      if (c0 :: rest).length ≠ c0.num_chunks then
        .error (.WrongNumberOfChunks c0.num_chunks (c0 :: rest).length)
      else
        .ok { filename := c0.filename,
              zstd_compressed_data :=
                ((c0 :: rest).map
                  (fun c => c.zstd_compressed_data_chunk)).flatten } := by
  unfold from_chunks
  split
  next heq =>
    rw [h] at heq
    cases heq
  next d0 drest heq =>
    rw [h] at heq
    cases heq
    rfl

theorem from_chunks_into_chunks (f : CompressedWireFile) (cs : Nat)
    (hcs : 0 < cs) (hne : f.zstd_compressed_data ≠ []) :
    from_chunks (into_chunks_with_size f cs) = .ok f := by
  have hsorted : sortChunks (into_chunks_with_size f cs)
      = into_chunks_with_size f cs :=
    sortChunks_of_sorted _ (into_chunks_pairwise f cs)
  obtain ⟨c0, rest, he⟩ :
      ∃ c0 rest, into_chunks_with_size f cs = c0 :: rest := by
    cases hi : into_chunks_with_size f cs with
    | nil => exact absurd hi (into_chunks_ne_nil f cs hcs hne)
    | cons a l => exact ⟨a, l, rfl⟩
  have hmem := mem_into_chunks f cs c0
    (by rw [he]; exact List.mem_cons_self c0 rest)
  have hlen : (c0 :: rest).length = c0.num_chunks := by
    rw [← he, into_chunks_length f cs hcs, hmem.2]
  rw [from_chunks_sorted_cons _ c0 rest (by rw [hsorted, he])]
  rw [if_neg (not_not_intro hlen)]
  have hdata : ((c0 :: rest).map (fun c => c.zstd_compressed_data_chunk)).flatten
      = f.zstd_compressed_data := by
    rw [← he, into_chunks_map_payload f cs, chunksOf_flatten cs hcs]
  rw [hmem.1, hdata]

/-! ### Lemmas about the `put_file_chunk` step -/

theorem finishTransfer_fst (blake3 : Bytes → Hash) (reg2 : Registry)
    (chunk_id : Nat) (file_hash : Hash)
    (chunks : List CompressedWireFileChunk) :
    (finishTransfer blake3 reg2 chunk_id file_hash chunks).1 = reg2 := by
  unfold finishTransfer
  split
  · split <;> rfl
  · rfl

theorem finishTransfer_snd (blake3 : Bytes → Hash) (reg2 : Registry)
    (chunk_id : Nat) (file_hash : Hash)
    (chunks : List CompressedWireFileChunk) :
    (finishTransfer blake3 reg2 chunk_id file_hash chunks).2
        = .Complete chunk_id ∨
    (finishTransfer blake3 reg2 chunk_id file_hash chunks).2
        = .Error chunk_id := by
  unfold finishTransfer
  split
  · split
    · exact Or.inr rfl
    · exact Or.inl rfl
  · exact Or.inr rfl

theorem finishTransfer_ok (blake3 : Bytes → Hash) (reg2 : Registry)
    (chunk_id : Nat) (file_hash : Hash)
    (chunks : List CompressedWireFileChunk) (file : CompressedWireFile)
    (h : from_chunks chunks = .ok file) :
    finishTransfer blake3 reg2 chunk_id file_hash chunks =
      if blake3 file.zstd_compressed_data ≠ file_hash then
        (reg2, .Error chunk_id)
      else
        (reg2, .Complete chunk_id) := by
  unfold finishTransfer
  split
  next f heq =>
    rw [h] at heq
    cases heq
    rfl
  next e heq =>
    rw [h] at heq
    cases heq

theorem curChunks_eq (reg : Registry) (req : PutFileChunkRequest) (now : Nat) :
    ((lookupTransfer reg req.file_hash).getD (freshTransfer req now)).chunks
      = curChunks reg req.file_hash := by
  unfold curChunks
  cases lookupTransfer reg req.file_hash <;> rfl

theorem headD_append_num_chunks (cs : List CompressedWireFileChunk)
    (c : CompressedWireFileChunk) (N : Nat)
    (hall : ∀ d ∈ cs, d.num_chunks = N) (hc : c.num_chunks = N) :
    ((cs ++ [c]).headD c).num_chunks = N := by
  cases cs with
  | nil =>
    simp only [List.nil_append, List.headD_cons]
    exact hc
  | cons d ds =>
    simp only [List.cons_append, List.headD_cons]
    exact hall d (List.mem_cons_self d ds)

theorem any_chunk_id_eq_false (l : List CompressedWireFileChunk) (i : Nat)
    (h : ∀ c ∈ l, c.chunk_id ≠ i) :
    l.any (fun c => c.chunk_id == i) = false := by
  rw [List.any_eq_false]
  intro c hc
  simp only [beq_iff_eq]
  exact h c hc

theorem head?_eq_some_headD {α : Type} (l : List α) (d : α) (h : l ≠ []) :
    l.head? = some (l.headD d) := by
  cases l with
  | nil => exact absurd rfl h
  | cons a t => rfl

/-- A non-duplicate submission: `put_file_chunk` appends the chunk and either
finishes the transfer or reports progress, depending on the completion test. -/
theorem putChunk_not_dup (blake3 : Bytes → Hash) (now : Nat) (reg : Registry)
    (req : PutFileChunkRequest) (t0 : InFlightTransfer)
    (hl : (lookupTransfer reg req.file_hash).getD (freshTransfer req now) = t0)
    (hfresh : ∀ c ∈ t0.chunks, c.chunk_id ≠ req.chunk.chunk_id) :
    put_file_chunk blake3 now reg req =
      if (t0.chunks ++ [req.chunk]).length
          = ((t0.chunks ++ [req.chunk]).headD req.chunk).num_chunks then
        finishTransfer blake3
          (removeTransfer
            (setTransfer reg req.file_hash
              { t0 with last_updated := now, chunks := t0.chunks ++ [req.chunk] })
            req.file_hash)
          req.chunk.chunk_id req.file_hash (t0.chunks ++ [req.chunk])
      else
        (setTransfer reg req.file_hash
          { t0 with last_updated := now, chunks := t0.chunks ++ [req.chunk] },
         .Progress req.chunk.chunk_id (t0.chunks ++ [req.chunk]).length) := by
  unfold put_file_chunk
  rw [hl]
  unfold putChunkIntoTransfer
  have hdup := any_chunk_id_eq_false t0.chunks req.chunk.chunk_id hfresh
  rw [if_neg (by simp [hdup])]

/-- A duplicate submission: `put_file_chunk` answers `Duplicate` and leaves
the registry exactly as it was. -/
theorem putChunk_dup (blake3 : Bytes → Hash) (now : Nat) (reg : Registry)
    (req : PutFileChunkRequest) (t0 : InFlightTransfer)
    (hl : lookupTransfer reg req.file_hash = some t0)
    (hdup : ∃ c ∈ t0.chunks, c.chunk_id = req.chunk.chunk_id) :
    put_file_chunk blake3 now reg req = (reg, .Duplicate req.chunk.chunk_id) := by
  unfold put_file_chunk
  rw [hl]
  simp only [Option.getD_some]
  unfold putChunkIntoTransfer
  obtain ⟨c, hc, he⟩ := hdup
  rw [if_pos (by rw [List.any_eq_true]; exact ⟨c, hc, by simp [he]⟩)]
  rw [setTransfer_lookup_self reg req.file_hash t0 hl]

/-- A first chunk for an absent key: `put_file_chunk` acts on the freshly
created `InFlightTransfer` holding just this chunk. -/
theorem putChunk_fresh_eq (blake3 : Bytes → Hash) (now : Nat) (reg : Registry)
    (req : PutFileChunkRequest)
    (habs : lookupTransfer reg req.file_hash = none) :
    put_file_chunk blake3 now reg req =
      if 1 = req.chunk.num_chunks then
        finishTransfer blake3
          (removeTransfer
            (setTransfer reg req.file_hash
              { target_path := req.target_path, target_perms := req.target_perms,
                last_updated := now, chunks := [req.chunk] })
            req.file_hash)
          req.chunk.chunk_id req.file_hash [req.chunk]
      else
        (setTransfer reg req.file_hash
          { target_path := req.target_path, target_perms := req.target_perms,
            last_updated := now, chunks := [req.chunk] },
         .Progress req.chunk.chunk_id 1) := by
  rw [putChunk_not_dup blake3 now reg req (freshTransfer req now)
    (by rw [habs]; rfl)
    (by intro c hc; simp [freshTransfer] at hc)]
  rfl

/-! ### The claims -/

/-- Claim C1 (amended): for every compressed file with a NONEMPTY byte
sequence and every chunk size ≥ 1, `from_chunks` over the output of
`into_chunks_with_size` returns the original file exactly; for every byte
sequence the number of chunks is `(len + chunk_size - 1) / chunk_size`
(= ceil(len/chunk_size)) and every chunk but the last has length exactly
`chunk_size`.  (On the empty byte sequence no chunks are produced and
reassembly fails with `NoChunks` — see the counterexample.) -/
theorem chunk_reassemble_roundtrip (f : CompressedWireFile) (cs : Nat)
    (hcs : 1 ≤ cs) :
    (f.zstd_compressed_data ≠ [] →
      from_chunks (into_chunks_with_size f cs) = .ok f) ∧
    (into_chunks_with_size f cs).length
      = (f.zstd_compressed_data.length + cs - 1) / cs ∧
    ∀ c ∈ (into_chunks_with_size f cs).dropLast,
      c.zstd_compressed_data_chunk.length = cs :=
  ⟨fun hne => from_chunks_into_chunks f cs hcs hne,
   into_chunks_length f cs hcs,
   into_chunks_dropLast_length f cs hcs⟩

/-- Claim C1 counterexample: for the EMPTY byte sequence and chunk size 1
(as allowed by the claim's "every byte sequence and every chunk size ≥ 1"),
chunking produces no chunks and reassembly returns `error NoChunks`
instead of the original file — the round trip fails. -/
theorem chunk_reassemble_roundtrip_cex :
    into_chunks_with_size ⟨"empty", []⟩ 1 = [] ∧
    from_chunks (into_chunks_with_size ⟨"empty", []⟩ 1)
      = .error .NoChunks :=
  ⟨rfl, rfl⟩

/-- Claim C1 witness: the round trip on the 5-byte file `[1,2,3,4,5]` with
chunk size 2 gives 3 chunks, each non-final chunk of length 2, and
reassembles to the original file. -/
theorem chunk_reassemble_roundtrip_witness :
    from_chunks (into_chunks_with_size ⟨"f", [1, 2, 3, 4, 5]⟩ 2)
      = .ok ⟨"f", [1, 2, 3, 4, 5]⟩ ∧
    (into_chunks_with_size ⟨"f", [1, 2, 3, 4, 5]⟩ 2).length = 3 ∧
    ∀ c ∈ (into_chunks_with_size ⟨"f", [1, 2, 3, 4, 5]⟩ 2).dropLast,
      c.zstd_compressed_data_chunk.length = 2 := by
  have h := chunk_reassemble_roundtrip ⟨"f", [1, 2, 3, 4, 5]⟩ 2 (by decide)
  exact ⟨h.1 (by decide), by rw [h.2.1]; decide, h.2.2⟩

/-- Claim C2: assuming every already-recorded chunk for the key and the
submitted chunk carry `num_chunks = N` and the submitted `chunk_id` is not
yet recorded, the submission that brings the seen count to some value below
`N` answers `Progress` with that count, and the submission that brings the
count to exactly `N` answers `Complete` or `Error` (from the assembly/hash
step) — never earlier, whatever the arrival order that produced the
recorded set. -/
theorem put_file_chunk_completion_exact (blake3 : Bytes → Hash) (now : Nat)
    (reg : Registry) (req : PutFileChunkRequest) (N : Nat)
    (hall : ∀ c ∈ curChunks reg req.file_hash, c.num_chunks = N)
    (hfresh : ∀ c ∈ curChunks reg req.file_hash,
      c.chunk_id ≠ req.chunk.chunk_id)
    (hreq : req.chunk.num_chunks = N) :
    ((curChunks reg req.file_hash).length + 1 < N →
      (put_file_chunk blake3 now reg req).2
        = .Progress req.chunk.chunk_id
            ((curChunks reg req.file_hash).length + 1)) ∧
    ((curChunks reg req.file_hash).length + 1 = N →
      (put_file_chunk blake3 now reg req).2
          = .Complete req.chunk.chunk_id ∨
      (put_file_chunk blake3 now reg req).2
          = .Error req.chunk.chunk_id) := by
  obtain ⟨t0, hl, hch⟩ :
      ∃ t0, (lookupTransfer reg req.file_hash).getD (freshTransfer req now)
          = t0 ∧ t0.chunks = curChunks reg req.file_hash :=
    ⟨_, rfl, curChunks_eq reg req now⟩
  rw [putChunk_not_dup blake3 now reg req t0 hl (by rw [hch]; exact hfresh)]
  have hnum : ((t0.chunks ++ [req.chunk]).headD req.chunk).num_chunks = N :=
    headD_append_num_chunks t0.chunks req.chunk N
      (by rw [hch]; exact hall) hreq
  have hlen : (t0.chunks ++ [req.chunk]).length
      = (curChunks reg req.file_hash).length + 1 := by
    rw [hch]
    simp
  constructor
  · intro hlt
    rw [if_neg (by rw [hlen, hnum]; omega)]
    rw [hlen]
  · intro heqN
    rw [if_pos (by rw [hlen, hnum]; omega)]
    exact finishTransfer_snd blake3 _ req.chunk.chunk_id req.file_hash _

/-- Claim C2 witness: with one of 3 chunks recorded, submitting a second
distinct chunk answers `Progress` with seen count 2. -/
theorem put_file_chunk_completion_exact_witness :
    (put_file_chunk (fun _ => [7]) 5
      [([7], ⟨"p", 6, 0, [⟨"f", 0, 3, [1]⟩]⟩)]
      ⟨[7], 6, "p", ⟨"f", 1, 3, [2]⟩⟩).2 = .Progress 1 2 := by
  have h := put_file_chunk_completion_exact (fun _ => [7]) 5
    [([7], ⟨"p", 6, 0, [⟨"f", 0, 3, [1]⟩]⟩)]
    ⟨[7], 6, "p", ⟨"f", 1, 3, [2]⟩⟩ 3
    (by decide) (by decide) (by decide)
  exact h.1 (by decide)

/-- Claim C3: a `put_file_chunk` call preserves the invariant that no
registry entry holds a chunk count equal to the `num_chunks` recorded on
its first chunk (the completing call removes the entry in the same atomic
step — the whole handler body runs under one lock acquisition, which the
sequential step function models); moreover whenever the call answers
`Complete` or `Error` from the completion path, the entry for the request's
key is gone from the resulting registry. -/
theorem put_file_chunk_completion_atomic (blake3 : Bytes → Hash) (now : Nat)
    (reg : Registry) (req : PutFileChunkRequest)
    (hinv : RegistryInv reg) (hnd : (reg.map Prod.fst).Nodup) :
    RegistryInv (put_file_chunk blake3 now reg req).1 ∧
    (∀ i, ((put_file_chunk blake3 now reg req).2 = .Complete i ∨
           (put_file_chunk blake3 now reg req).2 = .Error i) →
      lookupTransfer (put_file_chunk blake3 now reg req).1 req.file_hash
        = none) := by
  obtain ⟨t0, hl, hch⟩ :
      ∃ t0, (lookupTransfer reg req.file_hash).getD (freshTransfer req now)
          = t0 ∧ t0.chunks = curChunks reg req.file_hash :=
    ⟨_, rfl, curChunks_eq reg req now⟩
  by_cases hdup : ∃ c ∈ t0.chunks, c.chunk_id = req.chunk.chunk_id
  · have hsome : lookupTransfer reg req.file_hash = some t0 := by
      cases hlk : lookupTransfer reg req.file_hash with
      | some t =>
        rw [hlk, Option.getD_some] at hl
        rw [hl]
      | none =>
        rw [hlk, Option.getD_none] at hl
        obtain ⟨c, hc, _⟩ := hdup
        rw [← hl] at hc
        simp [freshTransfer] at hc
    rw [putChunk_dup blake3 now reg req t0 hsome hdup]
    refine ⟨hinv, fun i h => ?_⟩
    rcases h with h | h <;> cases h
  · push_neg at hdup
    rw [putChunk_not_dup blake3 now reg req t0 hl hdup]
    by_cases hfull : (t0.chunks ++ [req.chunk]).length
        = ((t0.chunks ++ [req.chunk]).headD req.chunk).num_chunks
    · rw [if_pos hfull]
      constructor
      · rw [finishTransfer_fst, removeTransfer_setTransfer]
        intro p hp
        exact hinv p (mem_removeTransfer reg req.file_hash p hp)
      · intro i _
        rw [finishTransfer_fst, removeTransfer_setTransfer]
        exact lookupTransfer_removeTransfer reg req.file_hash hnd
    · rw [if_neg hfull]
      constructor
      · intro p hp
        rcases mem_setTransfer reg req.file_hash _ p hp with hpe | hpm
        · rw [hpe]
          unfold transferFull
          rw [head?_eq_some_headD
            ((⟨t0.target_path, t0.target_perms, now,
                t0.chunks ++ [req.chunk]⟩ : InFlightTransfer).chunks)
            req.chunk (by simp)]
          show ((t0.chunks ++ [req.chunk]).length
            == ((t0.chunks ++ [req.chunk]).headD req.chunk).num_chunks) = false
          rw [beq_eq_false_iff_ne]
          exact hfull
        · exact hinv p hpm
      · intro i h
        rcases h with h | h <;> cases h

/-- Claim C3 witness: completing a 1-chunk transfer on an empty registry
leaves a registry satisfying the invariant, with no entry for the key. -/
theorem put_file_chunk_completion_atomic_witness :
    RegistryInv (put_file_chunk (fun _ => [0]) 0 []
      ⟨[5], 6, "p", ⟨"f", 0, 1, [1]⟩⟩).1 ∧
    lookupTransfer (put_file_chunk (fun _ => [0]) 0 []
      ⟨[5], 6, "p", ⟨"f", 0, 1, [1]⟩⟩).1 [5] = none := by
  have h := put_file_chunk_completion_atomic (fun _ => [0]) 0 []
    ⟨[5], 6, "p", ⟨"f", 0, 1, [1]⟩⟩
    (fun p hp => absurd hp (List.not_mem_nil p)) (by simp)
  exact ⟨h.1, h.2 0 (Or.inr (by decide))⟩

/-- Claim C4 (amended): a submission whose `chunk_id` is already recorded
for the key answers `Duplicate` and leaves the registry exactly unchanged;
a submission whose `chunk_id` is not yet recorded answers `Progress`,
`Complete`, or `Error` (from the assembly/hash step), never `Duplicate`.
(The original claim's "Progress or Complete, never Duplicate" misses the
`Error` outcome — see the counterexample.) -/
theorem put_file_chunk_duplicate_idempotent (blake3 : Bytes → Hash)
    (now : Nat) (reg : Registry) (req : PutFileChunkRequest) :
    (∀ t0, lookupTransfer reg req.file_hash = some t0 →
      (∃ c ∈ t0.chunks, c.chunk_id = req.chunk.chunk_id) →
      put_file_chunk blake3 now reg req
        = (reg, .Duplicate req.chunk.chunk_id)) ∧
    ((∀ c ∈ curChunks reg req.file_hash,
        c.chunk_id ≠ req.chunk.chunk_id) →
      (∃ s, (put_file_chunk blake3 now reg req).2
          = .Progress req.chunk.chunk_id s) ∨
      (put_file_chunk blake3 now reg req).2
          = .Complete req.chunk.chunk_id ∨
      (put_file_chunk blake3 now reg req).2
          = .Error req.chunk.chunk_id) := by
  constructor
  · intro t0 hsome hdup
    exact putChunk_dup blake3 now reg req t0 hsome hdup
  · intro hfresh
    obtain ⟨t0, hl, hch⟩ :
        ∃ t0, (lookupTransfer reg req.file_hash).getD (freshTransfer req now)
            = t0 ∧ t0.chunks = curChunks reg req.file_hash :=
      ⟨_, rfl, curChunks_eq reg req now⟩
    rw [putChunk_not_dup blake3 now reg req t0 hl (by rw [hch]; exact hfresh)]
    by_cases hfull : (t0.chunks ++ [req.chunk]).length
        = ((t0.chunks ++ [req.chunk]).headD req.chunk).num_chunks
    · rw [if_pos hfull]
      rcases finishTransfer_snd blake3 _ req.chunk.chunk_id req.file_hash _
        with h | h
      · exact Or.inr (Or.inl h)
      · exact Or.inr (Or.inr h)
    · rw [if_neg hfull]
      exact Or.inl ⟨_, rfl⟩

/-- Claim C4 counterexample: the FIRST submission of a `(TransferKey,
chunk_id)` can answer `Error` — here a single-chunk transfer whose
recomputed digest `[0]` differs from the carried key `[9]` — so "the first
submission yields Progress or Complete" is false as stated (it is still
never `Duplicate`). -/
theorem put_file_chunk_duplicate_idempotent_cex :
    (put_file_chunk (fun _ => [0]) 0 []
      ⟨[9], 6, "p", ⟨"f", 0, 1, [1]⟩⟩).2 = .Error 0 ∧
    (put_file_chunk (fun _ => [0]) 0 []
      ⟨[9], 6, "p", ⟨"f", 0, 1, [1]⟩⟩).2 ≠ .Progress 0 1 ∧
    (put_file_chunk (fun _ => [0]) 0 []
      ⟨[9], 6, "p", ⟨"f", 0, 1, [1]⟩⟩).2 ≠ .Complete 0 ∧
    (put_file_chunk (fun _ => [0]) 0 []
      ⟨[9], 6, "p", ⟨"f", 0, 1, [1]⟩⟩).2 ≠ .Duplicate 0 := by
  decide

/-- Claim C4 witness: resubmitting an already-recorded `chunk_id` answers
`Duplicate` and the registry — chunk list, seen count, `last_updated` —
is exactly the one before the call. -/
theorem put_file_chunk_duplicate_idempotent_witness :
    put_file_chunk (fun _ => [0]) 3
      [([9], ⟨"p", 6, 0, [⟨"f", 0, 2, [1]⟩]⟩)]
      ⟨[9], 6, "p", ⟨"f2", 0, 2, [2]⟩⟩
      = ([([9], ⟨"p", 6, 0, [⟨"f", 0, 2, [1]⟩]⟩)], .Duplicate 0) := by
  have h := put_file_chunk_duplicate_idempotent (fun _ => [0]) 3
    [([9], ⟨"p", 6, 0, [⟨"f", 0, 2, [1]⟩]⟩)]
    ⟨[9], 6, "p", ⟨"f2", 0, 2, [2]⟩⟩
  exact h.1 ⟨"p", 6, 0, [⟨"f", 0, 2, [1]⟩]⟩ (by decide)
    ⟨⟨"f", 0, 2, [1]⟩, by decide, by decide⟩

/-- Claim C5: when the submitted chunk completes a transfer (all chunks
carry `num_chunks = N`, the new id is fresh, and the count reaches `N`),
the handler sorts the chunks by `chunk_id`, concatenates their payloads,
recomputes the blake3 digest of the result, and compares it with the
request's TransferKey: a mismatch answers `Error{chunk_id}` (the assembled
bytes go nowhere — the entry is gone and nothing is stored), a match
answers `Complete{chunk_id}`; either way the entry is removed. -/
theorem put_file_chunk_hash_check (blake3 : Bytes → Hash) (now : Nat)
    (reg : Registry) (req : PutFileChunkRequest) (N : Nat)
    (hall : ∀ c ∈ curChunks reg req.file_hash, c.num_chunks = N)
    (hfresh : ∀ c ∈ curChunks reg req.file_hash,
      c.chunk_id ≠ req.chunk.chunk_id)
    (hreq : req.chunk.num_chunks = N)
    (hcomp : (curChunks reg req.file_hash).length + 1 = N)
    (hnd : (reg.map Prod.fst).Nodup) :
    (blake3 (((sortChunks (curChunks reg req.file_hash ++ [req.chunk])).map
          (fun c => c.zstd_compressed_data_chunk)).flatten) = req.file_hash →
      (put_file_chunk blake3 now reg req).2 = .Complete req.chunk.chunk_id) ∧
    (blake3 (((sortChunks (curChunks reg req.file_hash ++ [req.chunk])).map
          (fun c => c.zstd_compressed_data_chunk)).flatten) ≠ req.file_hash →
      (put_file_chunk blake3 now reg req).2 = .Error req.chunk.chunk_id) ∧
    lookupTransfer (put_file_chunk blake3 now reg req).1 req.file_hash
      = none := by
  obtain ⟨t0, hl, hch⟩ :
      ∃ t0, (lookupTransfer reg req.file_hash).getD (freshTransfer req now)
          = t0 ∧ t0.chunks = curChunks reg req.file_hash :=
    ⟨_, rfl, curChunks_eq reg req now⟩
  rw [putChunk_not_dup blake3 now reg req t0 hl (by rw [hch]; exact hfresh)]
  have hnum : ((t0.chunks ++ [req.chunk]).headD req.chunk).num_chunks = N :=
    headD_append_num_chunks t0.chunks req.chunk N
      (by rw [hch]; exact hall) hreq
  have hlen1 : (t0.chunks ++ [req.chunk]).length = N := by
    rw [hch]
    simp
    omega
  rw [if_pos (by rw [hlen1, hnum])]
  have hallN : ∀ c ∈ t0.chunks ++ [req.chunk], c.num_chunks = N := by
    intro c hc
    rcases List.mem_append.mp hc with hc | hc
    · exact hall c (hch ▸ hc)
    · rw [List.mem_singleton.mp hc]
      exact hreq
  obtain ⟨c0, rest, hs⟩ :
      ∃ c0 rest, sortChunks (t0.chunks ++ [req.chunk]) = c0 :: rest := by
    cases hs : sortChunks (t0.chunks ++ [req.chunk]) with
    | nil =>
      exfalso
      have := congrArg List.length hs
      rw [length_sortChunks, hlen1] at this
      simp at this
      omega
    | cons a l => exact ⟨a, l, rfl⟩
  have hc0N : c0.num_chunks = N :=
    hallN c0 ((mem_sortChunks c0 _).mp (hs ▸ List.mem_cons_self c0 rest))
  have hlc : (c0 :: rest).length = N := by
    have := congrArg List.length hs
    rw [length_sortChunks, hlen1] at this
    exact this.symm
  have hok : from_chunks (t0.chunks ++ [req.chunk])
      = .ok ⟨c0.filename,
          ((c0 :: rest).map (fun c => c.zstd_compressed_data_chunk)).flatten⟩ := by
    rw [from_chunks_sorted_cons _ c0 rest hs,
      if_neg (not_not_intro (by rw [hlc, hc0N]))]
  have hsc : sortChunks (curChunks reg req.file_hash ++ [req.chunk])
      = c0 :: rest := by
    rw [← hch]
    exact hs
  rw [hsc]
  refine ⟨?_, ?_, ?_⟩
  · intro hhash
    rw [finishTransfer_ok blake3 _ _ _ _ _ hok, if_neg (not_not_intro hhash)]
  · intro hhash
    rw [finishTransfer_ok blake3 _ _ _ _ _ hok, if_pos hhash]
  · rw [finishTransfer_fst, removeTransfer_setTransfer]
    exact lookupTransfer_removeTransfer reg req.file_hash hnd

/-- Claim C5 witness: completing a 2-chunk transfer whose digest matches
the key answers `Complete` and removes the entry; with a mismatching digest
(different key) it answers `Error`. -/
theorem put_file_chunk_hash_check_witness :
    (put_file_chunk (fun _ => [9]) 5
      [([9], ⟨"p", 6, 0, [⟨"f", 0, 2, [1]⟩]⟩)]
      ⟨[9], 6, "p", ⟨"f", 1, 2, [2]⟩⟩).2 = .Complete 1 ∧
    lookupTransfer (put_file_chunk (fun _ => [9]) 5
      [([9], ⟨"p", 6, 0, [⟨"f", 0, 2, [1]⟩]⟩)]
      ⟨[9], 6, "p", ⟨"f", 1, 2, [2]⟩⟩).1 [9] = none ∧
    (put_file_chunk (fun _ => [3]) 5
      [([9], ⟨"p", 6, 0, [⟨"f", 0, 2, [1]⟩]⟩)]
      ⟨[9], 6, "p", ⟨"f", 1, 2, [2]⟩⟩).2 = .Error 1 := by
  have h1 := put_file_chunk_hash_check (fun _ => [9]) 5
    [([9], ⟨"p", 6, 0, [⟨"f", 0, 2, [1]⟩]⟩)]
    ⟨[9], 6, "p", ⟨"f", 1, 2, [2]⟩⟩ 2
    (by decide) (by decide) (by decide) (by decide) (by simp)
  have h2 := put_file_chunk_hash_check (fun _ => [3]) 5
    [([9], ⟨"p", 6, 0, [⟨"f", 0, 2, [1]⟩]⟩)]
    ⟨[9], 6, "p", ⟨"f", 1, 2, [2]⟩⟩ 2
    (by decide) (by decide) (by decide) (by decide) (by simp)
  exact ⟨h1.1 (by decide), h1.2.2, h2.2.1 (by decide)⟩

/-- Claim C6: `from_chunks` on the empty list fails with `NoChunks`, and on
any list whose length differs from the `num_chunks` of the first chunk
after sorting by `chunk_id` fails with `WrongNumberOfChunks` carrying the
expected (`num_chunks`) and actual (list length) counts — it never returns
a truncated or padded file in these cases. -/
theorem from_chunks_wrong_count (chunks : List CompressedWireFileChunk) :
    (chunks = [] → from_chunks chunks = .error .NoChunks) ∧
    (∀ c0 rest, sortChunks chunks = c0 :: rest →
      chunks.length ≠ c0.num_chunks →
      from_chunks chunks
        = .error (.WrongNumberOfChunks c0.num_chunks chunks.length)) := by
  constructor
  · intro h
    subst h
    rfl
  · intro c0 rest hs hne
    rw [from_chunks_sorted_cons chunks c0 rest hs]
    have hlen : (c0 :: rest).length = chunks.length := by
      rw [← hs, length_sortChunks]
    rw [hlen, if_pos hne]

/-- Claim C6 witness: two chunks claiming `num_chunks = 3` fail with
`WrongNumberOfChunks 3 2`; the empty list fails with `NoChunks`. -/
theorem from_chunks_wrong_count_witness :
    from_chunks [⟨"f", 0, 3, [1]⟩, ⟨"f", 1, 3, [2]⟩]
      = .error (.WrongNumberOfChunks 3 2) ∧
    from_chunks [] = .error .NoChunks := by
  have h := from_chunks_wrong_count [⟨"f", 0, 3, [1]⟩, ⟨"f", 1, 3, [2]⟩]
  have h0 := from_chunks_wrong_count []
  exact ⟨h.2 ⟨"f", 0, 3, [1]⟩ [⟨"f", 1, 3, [2]⟩] (by decide) (by decide),
    h0.1 rfl⟩

/-- Claim C7: the pinned-certificate verifier accepts exactly when the
presented end-entity certificate is byte-identical to the pinned one;
every other certificate — whatever intermediates, server name, OCSP data,
or time accompany it — is rejected with an error. -/
theorem cert_pinning (r : SelfSignedCertResolver) (end_entity : Certificate)
    (intermediates : List Certificate) (server_name : String)
    (ocsp_response : Bytes) (now : Nat) :
    (verify_server_cert r end_entity intermediates server_name
        ocsp_response now = .ok () ↔ end_entity = r.end_entity) ∧
    (end_entity ≠ r.end_entity →
      verify_server_cert r end_entity intermediates server_name
          ocsp_response now
        = .error "we accept only matching self-signed certs") := by
  unfold verify_server_cert
  constructor
  · constructor
    · intro h
      by_contra hne
      rw [if_neg hne] at h
      cases h
    · intro h
      rw [if_pos h]
  · intro hne
    rw [if_neg hne]

/-- Claim C7 witness: the pinned cert `[1,2,3]` is accepted; a different
cert `[9,9,9]` is rejected even when presented with an intermediate chain. -/
theorem cert_pinning_witness :
    verify_server_cert ⟨[1, 2, 3]⟩ [1, 2, 3] [] "srv" [] 0 = .ok () ∧
    verify_server_cert ⟨[1, 2, 3]⟩ [9, 9, 9] [[1, 2, 3]] "srv" [] 0
      = .error "we accept only matching self-signed certs" :=
  ⟨(cert_pinning ⟨[1, 2, 3]⟩ [1, 2, 3] [] "srv" [] 0).1.mpr rfl,
   (cert_pinning ⟨[1, 2, 3]⟩ [9, 9, 9] [[1, 2, 3]] "srv" [] 0).2 (by decide)⟩

/-- Claim C8: contrary to the claim, the frame-length bound `serve`
configures is `u32::MAX` = 4294967295 bytes (the maximum value the 32-bit
length field can represent, about 4 GiB), not a tens-of-megabytes
constant — it exceeds even 100 MiB. -/
theorem serve_max_frame_length_unbounded :
    serve_max_frame_length = 2 ^ 32 - 1 ∧
    100 * 1024 * 1024 < serve_max_frame_length := by
  decide

/-- Claim C9: a chunk arriving for a key with no registry entry (e.g. one
whose transfer already completed and was removed) starts a new transfer:
the handler creates a fresh `InFlightTransfer` from this request's
`target_path` and `target_perms` holding just this chunk and answers
`Progress` with count 1 — unless the chunk declares `num_chunks = 1`,
in which case the fresh transfer immediately completes (entry gone again,
`Complete` or `Error`).  No case is a crash. -/
theorem put_file_chunk_absent_new_transfer (blake3 : Bytes → Hash)
    (now : Nat) (reg : Registry) (req : PutFileChunkRequest)
    (habs : lookupTransfer reg req.file_hash = none) :
    (req.chunk.num_chunks ≠ 1 →
      put_file_chunk blake3 now reg req
        = (setTransfer reg req.file_hash
            { target_path := req.target_path
              target_perms := req.target_perms
              last_updated := now
              chunks := [req.chunk] },
           .Progress req.chunk.chunk_id 1)) ∧
    (req.chunk.num_chunks = 1 →
      lookupTransfer (put_file_chunk blake3 now reg req).1 req.file_hash
          = none ∧
      ((put_file_chunk blake3 now reg req).2
          = .Complete req.chunk.chunk_id ∨
       (put_file_chunk blake3 now reg req).2
          = .Error req.chunk.chunk_id)) := by
  rw [putChunk_fresh_eq blake3 now reg req habs]
  constructor
  · intro hne
    rw [if_neg (fun h => hne h.symm)]
  · intro h1
    rw [if_pos h1.symm]
    constructor
    · rw [finishTransfer_fst, removeTransfer_setTransfer,
        removeTransfer_of_lookup_none reg req.file_hash habs]
      exact habs
    · exact finishTransfer_snd blake3 _ req.chunk.chunk_id req.file_hash _

/-- Claim C9 witness: a 2-chunk chunk id 0 arriving on an empty registry
creates the fresh entry from the request's path and perms and answers
`Progress 0 1`. -/
theorem put_file_chunk_absent_new_transfer_witness :
    put_file_chunk (fun _ => [0]) 7 [] ⟨[4], 6, "p", ⟨"f", 0, 2, [1]⟩⟩
      = ([([4], ⟨"p", 6, 7, [⟨"f", 0, 2, [1]⟩]⟩)], .Progress 0 1) := by
  have h := put_file_chunk_absent_new_transfer (fun _ => [0]) 7 []
    ⟨[4], 6, "p", ⟨"f", 0, 2, [1]⟩⟩ rfl
  exact h.1 (by decide)

/-- Claim C10: `from_chunks` succeeds exactly when the sorted input is
nonempty with length equal to the first sorted chunk's `num_chunks` — chunk
identity is never inspected: two chunks sharing `chunk_id = 0` but claiming
`num_chunks = 2` reassemble without error into the concatenation of their
payloads in submission order. -/
theorem from_chunks_count_only_validation :
    (∀ chunks : List CompressedWireFileChunk,
      (from_chunks chunks).isOk = true ↔
        ∃ c0 rest, sortChunks chunks = c0 :: rest ∧
          chunks.length = c0.num_chunks) ∧
    from_chunks [⟨"f", 0, 2, [1]⟩, ⟨"f", 0, 2, [2]⟩] = .ok ⟨"f", [1, 2]⟩ := by
  constructor
  · intro chunks
    constructor
    · intro h
      cases hs : sortChunks chunks with
      | nil =>
        rw [from_chunks_sorted_nil chunks hs] at h
        simp [Except.isOk, Except.toBool] at h
      | cons c0 rest =>
        refine ⟨c0, rest, rfl, ?_⟩
        by_contra hne
        rw [from_chunks_sorted_cons chunks c0 rest hs] at h
        have hlen : (c0 :: rest).length = chunks.length := by
          rw [← hs, length_sortChunks]
        rw [hlen, if_pos hne] at h
        simp [Except.isOk, Except.toBool] at h
    · rintro ⟨c0, rest, hs, hlen⟩
      rw [from_chunks_sorted_cons chunks c0 rest hs]
      have hlen2 : (c0 :: rest).length = chunks.length := by
        rw [← hs, length_sortChunks]
      rw [hlen2, if_neg (not_not_intro hlen)]
      rfl
  · rfl

/-- Claim C10 witness: a single self-consistent chunk reassembles
successfully — the success criterion of the iff holds. -/
theorem from_chunks_count_only_validation_witness :
    (from_chunks [⟨"g", 5, 1, [9]⟩]).isOk = true :=
  (from_chunks_count_only_validation.1 [⟨"g", 5, 1, [9]⟩]).mpr
    ⟨⟨"g", 5, 1, [9]⟩, [], by decide, by decide⟩
